import Mathlib

/-!
Verification development for the provenance-tracking module `util/metadata.py`
of viral-ngs: step recording around command invocations, the provenance-graph
loader with its repair pass, the point provenance query, and the assembly
Comp extractor.

Conventions of the shallow embedding:
* Times (mtime, beg_time) are integers (seconds).  The age filter
  `((time.time() - beg_time)/(60*60*24)) > max_age_days` is modelled by the
  arithmetically equivalent integer comparison `now - beg_time > max_age_days * 86400`.
* Python dict-key presence is modelled with `Option` fields: `none` means the
  key is absent, so a direct subscript on an absent key (a `KeyError`, which
  aborts the enclosing operation) is modelled by the operation returning `none`.
* External effects (filesystem stat/hash, `os.path.samefile`, store I/O,
  the wrapped command's own behaviour) are parameters of the definitions.
* Python `assert` failures and uncaught exceptions make the modelled
  operation return `none`.
-/

/-! ### Graph data model (`ProvenanceGraph`, networkx.DiGraph)

`FileNode = collections.namedtuple('FileNode', 'realpath file_hash mtime')`;
step nodes are keyed by `step_id` and carry the step record as attributes
(we keep the fields the analysed code reads: `step_name` and
`run_info['beg_time']`).  Edges carry the argument name plus any per-argument
metadata overrides (`self[u][v][attr] = val`). -/

structure FileNode where
  realpath : String
  file_hash : String
  mtime : Int
deriving DecidableEq, Repr

abbrev StepId := String

inductive Node where
  | fnode (f : FileNode)
  | snode (s : StepId)
deriving DecidableEq, Repr

structure StepAttrs where
  step_id : StepId
  step_name : String
  beg_time : Int
deriving DecidableEq, Repr

structure EdgeAttrs where
  arg : String
  meta : List (String × String)
deriving DecidableEq, Repr

structure Edge where
  src : Node
  dst : Node
  attrs : EdgeAttrs
deriving DecidableEq, Repr

/-- The provenance graph: file nodes and step nodes in insertion order plus a
directed edge list with at most one edge per (src, dst) pair (a networkx
`DiGraph` admits one edge per ordered pair; `add_edge` on an existing pair
updates its attribute dict, which we model as replacing the attributes). -/
structure PGraph where
  fnodes : List FileNode
  snodes : List StepAttrs
  edges : List Edge
deriving DecidableEq, Repr

def PGraph.empty : PGraph := ⟨[], [], []⟩

def PGraph.addFNode (g : PGraph) (f : FileNode) : PGraph :=
  if f ∈ g.fnodes then g else { g with fnodes := g.fnodes ++ [f] }

def PGraph.addSNode (g : PGraph) (a : StepAttrs) : PGraph :=
  if g.snodes.any (fun b => decide (b.step_id = a.step_id)) then
    { g with snodes := g.snodes.map (fun b => if b.step_id = a.step_id then a else b) }
  else { g with snodes := g.snodes ++ [a] }

def PGraph.hasEdge (g : PGraph) (u v : Node) : Bool :=
  g.edges.any (fun e => decide (e.src = u) && decide (e.dst = v))

def PGraph.addEdge (g : PGraph) (u v : Node) (a : EdgeAttrs) : PGraph :=
  if g.hasEdge u v then
    { g with edges := g.edges.map (fun e =>
        if e.src = u ∧ e.dst = v then { e with attrs := a } else e) }
  else { g with edges := g.edges ++ [⟨u, v, a⟩] }

def PGraph.removeEdge (g : PGraph) (u v : Node) : PGraph :=
  { g with edges := g.edges.filter (fun e => !(decide (e.src = u) && decide (e.dst = v))) }

def PGraph.getEdgeAttrs (g : PGraph) (u v : Node) : Option EdgeAttrs :=
  (g.edges.find? (fun e => decide (e.src = u) && decide (e.dst = v))).map (·.attrs)

/-- `self.pred[f]` for a file node: sources of edges into it. -/
def PGraph.predF (g : PGraph) (f : FileNode) : List Node :=
  (g.edges.filter (fun e => decide (e.dst = Node.fnode f))).map (·.src)

/-- `self.succ[f]` for a file node.  In a bipartite provenance graph every
successor of a file node is a step node, and the analysed code immediately
reads step attributes of it, so we return the step ids. -/
def PGraph.succSteps (g : PGraph) (f : FileNode) : List StepId :=
  g.edges.filterMap (fun e =>
    if e.src = Node.fnode f then
      match e.dst with
      | Node.snode s => some s
      | Node.fnode _ => none
    else none)

/-- `self.in_degree[f]` for a file node. -/
def PGraph.inDegF (g : PGraph) (f : FileNode) : Nat :=
  g.edges.countP (fun e => decide (e.dst = Node.fnode f))

/-- `self.nodes[s]['run_info']['beg_time']`.  Every step id the analysed code
looks up is a node of the graph; the default is never reached there. -/
def PGraph.stepBeg (g : PGraph) (s : StepId) : Int :=
  ((g.snodes.find? (fun b => decide (b.step_id = s))).map (·.beg_time)).getD 0

/-- `self.nodes[s]['step_name']`. -/
def PGraph.stepName (g : PGraph) (s : StepId) : Option String :=
  (g.snodes.find? (fun b => decide (b.step_id = s))).map (·.step_name)

def PGraph.allNodes (g : PGraph) : List Node :=
  g.fnodes.map Node.fnode ++ g.snodes.map (fun a => Node.snode a.step_id)

def PGraph.predNodes (g : PGraph) (n : Node) : List Node :=
  (g.edges.filter (fun e => decide (e.dst = n))).map (·.src)

def PGraph.succNodes (g : PGraph) (n : Node) : List Node :=
  (g.edges.filter (fun e => decide (e.src = n))).map (·.dst)

/-- One expansion step of a predecessor closure. -/
def PGraph.expandPred (g : PGraph) (S : List Node) : List Node :=
  (S ++ S.foldr (fun n acc => g.predNodes n ++ acc) []).dedup

def PGraph.reachPred (g : PGraph) (S : List Node) : Nat → List Node
  | 0 => S
  | n + 1 => g.reachPred (g.expandPred S) n

/-- `networkx.algorithms.dag.ancestors(G, n)`: all nodes with a directed path
to `n` (excluding `n` itself in a DAG).  Iterating the one-step expansion
`|nodes|` times reaches every ancestor. -/
def PGraph.ancestors (g : PGraph) (n : Node) : List Node :=
  g.reachPred (g.predNodes n).dedup g.allNodes.length

def PGraph.expandSucc (g : PGraph) (S : List Node) : List Node :=
  (S ++ S.foldr (fun n acc => g.succNodes n ++ acc) []).dedup

def PGraph.reachSucc (g : PGraph) (S : List Node) : Nat → List Node
  | 0 => S
  | n + 1 => g.reachSucc (g.expandSucc S) n

/-- `networkx.algorithms.dag.is_directed_acyclic_graph`: no node reaches
itself through at least one edge. -/
def PGraph.isDAG (g : PGraph) : Bool :=
  g.allNodes.all (fun n => !(decide (n ∈ g.reachSucc (g.succNodes n).dedup g.allNodes.length)))

/-! ### The step-recording wrapper (`_run_cmd_with_tracking`)

The wrapper (metadata.py lines 305-432) around one command invocation:

    save_steps_running = os.environ.get('VIRAL_NGS_METADATA_STEPS_RUNNING', '')
    os.environ['VIRAL_NGS_METADATA_STEPS_RUNNING'] = ((save+':') if save else '') + step_id
    reuse_cached_step(cmd_module, cmd_name, args_dict)     -- OUTSIDE the try block
    try:
        cmd_result = cmd_main(args_new)
    except Exception as e:
        cmd_exception, cmd_exception_str = e, traceback.format_exc()
    finally:
        os.environ['VIRAL_NGS_METADATA_STEPS_RUNNING'] = save_steps_running
        try:
            if is_metadata_tracking_enabled() and not isinstance(cmd_exception, KeyboardInterrupt):
                ... build the record, serialize, write to the store ...
        except Exception:
            _log.warning(...)
    if cmd_exception: raise cmd_exception

Externals are parameters: `reuse` is the outcome of the `reuse_cached_step`
call (its body does store I/O with no exception handler, so it can raise;
it returns immediately when `VIRAL_NGS_DATA_CACHE` is unset), `cmd` is the
outcome of `cmd_main`, and `recording` is the combined outcome of the
record-building/serialization/store-write region inside the inner try. -/

/-- Outcome of calling `cmd_main`.  In Python 3, `KeyboardInterrupt` derives
from `BaseException`, not `Exception`, so it is a distinct constructor. -/
inductive CmdOutcome (α : Type) where
  | ok (a : α)
  | exc (msg : String)
  | kbInt
deriving DecidableEq, Repr

/-- An exception object held in `cmd_exception`.  Only the `exception`
constructor can be produced by an `except Exception` handler. -/
inductive PyBaseExc where
  | exception (msg : String)
  | keyboardInterrupt
deriving DecidableEq, Repr

def isKbInt : Option PyBaseExc → Bool
  | some PyBaseExc.keyboardInterrupt => true
  | _ => false

/-- What the caller of the wrapped command observes. -/
inductive WrapOutcome (α : Type) where
  | ok (a : α)
  | exc (msg : String)
  | kbInt
  | escaped (msg : String)
deriving DecidableEq, Repr

/-- The caller-visible image of a command outcome when nothing interferes. -/
def outcomeOf {α : Type} : CmdOutcome α → WrapOutcome α
  | CmdOutcome.ok a => WrapOutcome.ok a
  | CmdOutcome.exc m => WrapOutcome.exc m
  | CmdOutcome.kbInt => WrapOutcome.kbInt

structure WrapResult (α : Type) where
  outcome : WrapOutcome α
  cmdInvoked : Bool
  stepsRunningAfter : String
  /-- `some excText` iff a step record was written; `excText` is the
  record's `run_info.exception` field. -/
  recorded : Option (Option String)
deriving DecidableEq, Repr

/-- `VIRAL_NGS_METADATA_STEPS_RUNNING` push (metadata.py line 342). -/
def pushStep (save step_id : String) : String :=
  (if save ≠ "" then save ++ ":" else "") ++ step_id

def run_cmd_with_tracking {α : Type} (trackingEnabled : Bool)
    (save_steps_running step_id : String) (reuse : Except String Unit)
    (cmd : CmdOutcome α) (recording : Except String Unit) : WrapResult α :=
  let pushed := pushStep save_steps_running step_id
  match reuse with
  | Except.error e =>
      -- reuse_cached_step is called before the try/finally block is entered:
      -- an exception here propagates, cmd_main is never called, and the
      -- environment variable keeps the pushed value.
      ⟨WrapOutcome.escaped e, false, pushed, none⟩
  | Except.ok _ =>
      -- try: cmd_main / except Exception / finally
      let cmd_exception : Option PyBaseExc :=
        match cmd with
        | CmdOutcome.exc m => some (PyBaseExc.exception m)
        | _ => none
      let cmd_exception_str : Option String :=
        match cmd with
        | CmdOutcome.exc m => some m
        | _ => none
      -- finally: restore the environment variable first, then record.
      let recorded : Option (Option String) :=
        if trackingEnabled && !isKbInt cmd_exception then
          match recording with
          | Except.ok _ => some cmd_exception_str
          | Except.error _ => none
        else none
      let outcome : WrapOutcome α :=
        match cmd with
        | CmdOutcome.ok a => WrapOutcome.ok a
        | CmdOutcome.exc m => WrapOutcome.exc m
        | CmdOutcome.kbInt => WrapOutcome.kbInt
      ⟨outcome, true, save_steps_running, recorded⟩


/-! ### Step records as parsed from the store

A step record is a parsed JSON dict.  `Option` fields model dict-key
presence; subscripting an absent key is a `KeyError` that aborts the
enclosing load (modelled as `none`).  `FileInfo` is one entry of a
`FileArg`'s `files` list as produced by `gather_file_info`/`file2dict`
(fields the loader never reads -- abspath, ctime, owner, inode, device --
are omitted). -/

structure FileInfo where
  fname : Option String
  realpath : Option String
  hash : Option String
  size : Option Int
  mtime : Option Int
deriving DecidableEq, Repr

/-- An argument value in `step['args']`: a plain (stringified) scalar, a
serialized `FileArg` dict (`__FileArg__` marker, mode `'r'`/`'w'`, files
list), or a list of values. -/
inductive ArgVal where
  | scalar (s : String)
  | fileArg (mode : String) (files : List FileInfo)
  | listVal (xs : List ArgVal)

mutual

def ArgVal.decEq : (a b : ArgVal) → Decidable (a = b)
  | ArgVal.scalar s, ArgVal.scalar t =>
      if h : s = t then isTrue (by rw [h]) else isFalse (by intro hh; injection hh; contradiction)
  | ArgVal.scalar _, ArgVal.fileArg _ _ => isFalse (fun h => ArgVal.noConfusion h)
  | ArgVal.scalar _, ArgVal.listVal _ => isFalse (fun h => ArgVal.noConfusion h)
  | ArgVal.fileArg _ _, ArgVal.scalar _ => isFalse (fun h => ArgVal.noConfusion h)
  | ArgVal.fileArg m fs, ArgVal.fileArg m2 fs2 =>
      if h : m = m2 ∧ fs = fs2 then isTrue (by rw [h.1, h.2])
      else isFalse (by intro hh; injection hh; exact h ⟨‹_›, ‹_›⟩)
  | ArgVal.fileArg _ _, ArgVal.listVal _ => isFalse (fun h => ArgVal.noConfusion h)
  | ArgVal.listVal _, ArgVal.scalar _ => isFalse (fun h => ArgVal.noConfusion h)
  | ArgVal.listVal _, ArgVal.fileArg _ _ => isFalse (fun h => ArgVal.noConfusion h)
  | ArgVal.listVal xs, ArgVal.listVal ys =>
      match ArgVal.decEqList xs ys with
      | isTrue h => isTrue (by rw [h])
      | isFalse h => isFalse (by intro hh; injection hh; contradiction)

def ArgVal.decEqList : (xs ys : List ArgVal) → Decidable (xs = ys)
  | [], [] => isTrue rfl
  | [], _ :: _ => isFalse (fun h => List.noConfusion h)
  | _ :: _, [] => isFalse (fun h => List.noConfusion h)
  | x :: xs, y :: ys =>
      match ArgVal.decEq x y, ArgVal.decEqList xs ys with
      | isTrue h1, isTrue h2 => isTrue (by rw [h1, h2])
      | isFalse h1, _ => isFalse (by intro hh; injection hh; contradiction)
      | _, isFalse h2 => isFalse (by intro hh; injection hh; contradiction)

end

instance : DecidableEq ArgVal := ArgVal.decEq

structure RunInfo where
  exception : Option String
  beg_time : Int
deriving DecidableEq, Repr

structure RawStep where
  args : Option (List (String × ArgVal))
  step_id : Option String
  cmd_module : Option String
  cmd_name : Option String
  run_info : Option RunInfo
  enclosing_steps : Option String
  metadata_from_cmd_line : Option (List (String × String))
deriving DecidableEq

structure RawRecord where
  format : Option String
  step : Option RawStep
deriving DecidableEq

/-- `is_valid_step_record`: `dict_has_keys(d, 'format step') and
dict_has_keys(d['step'], 'args step_id cmd_module')` -- key presence only. -/
def is_valid_step_record (r : RawRecord) : Bool :=
  r.format.isSome &&
    (match r.step with
     | some st => st.args.isSome && st.step_id.isSome && st.cmd_module.isSome
     | none => false)

mutual

/-- `gather_files(val)` inside `ProvenanceGraph.load`: flatten an argument
value into the `FileArg` dicts it denotes (mode together with the files
list), recursing through lists. -/
def gather_files : ArgVal → List (String × List FileInfo)
  | ArgVal.scalar _ => []
  | ArgVal.fileArg m fs => [(m, fs)]
  | ArgVal.listVal xs => gather_files_list xs

/-- Concatenation over a list of argument values
(`functools.reduce(operator.concat, ...)`). -/
def gather_files_list : List ArgVal → List (String × List FileInfo)
  | [] => []
  | x :: xs => gather_files x ++ gather_files_list xs

end

/-! ### Hash / realpath indices and the repair pass

`_compute_hash_and_realpath_indices` builds `hash2files` (content hash to
file nodes) and `realpath2files` (canonical path to file nodes, extended
across paths that the OS reports as the same underlying file).  The OS-level
checks `os.path.isfile` / `os.path.samefile` are external and appear as a
parameter.  Python keeps these indices as sets; only membership is ever used
(candidate lists are re-sorted by mtime before use), so we normalize the
order to file-node insertion order. -/

structure FsModel where
  isfile : String → Bool
  samefile : String → String → Bool

def hash2files (g : PGraph) (h : String) : List FileNode :=
  g.fnodes.filter (fun f => decide (f.file_hash = h))

/-- `realpath2files[p]`: nodes whose realpath is `p`, plus every node `f2`
put there by the same-file extension loop: some `f1` with realpath `p`
shares `f2`'s hash (so both sit in a hash group of size > 1), the realpaths
differ, both exist on disk and the OS reports them as the same file. -/
def realpath2files (fsm : FsModel) (g : PGraph) (p : String) : List FileNode :=
  g.fnodes.filter (fun f => decide (f.realpath = p)) ++
    g.fnodes.filter (fun f2 =>
      g.fnodes.any (fun f1 =>
        decide (f1.realpath = p) && decide (f1.file_hash = f2.file_hash) &&
        !(decide (f1.realpath = f2.realpath)) && fsm.isfile f1.realpath &&
        fsm.isfile f2.realpath && fsm.samefile f1.realpath f2.realpath))

/-- `hash2files[f.file_hash] & realpath2files[f.realpath]` (set
intersection), in hash-group order. -/
def interCands (fsm : FsModel) (g : PGraph) (f : FileNode) : List FileNode :=
  (hash2files g f.file_hash).filter
    (fun f2 => decide (f2 ∈ realpath2files fsm g f.realpath))

/-- Stable insertion into an mtime-sorted list (ties keep insertion order,
like Python's stable `sorted`). -/
def insertByMtime (x : FileNode) : List FileNode → List FileNode
  | [] => [x]
  | y :: ys => if x.mtime ≤ y.mtime then x :: y :: ys else y :: insertByMtime x ys

/-- `sorted(f2s, key=operator.attrgetter('mtime'))`. -/
def sortByMtime : List FileNode → List FileNode
  | [] => []
  | x :: xs => insertByMtime x (sortByMtime xs)

/-- The sorted candidate list the repair pass computes for an orphan `f`:
`[f2 for f2 in (hash2files[f.file_hash] & realpath2files[f.realpath])
if f2 != f and f2.mtime < f.mtime]`, sorted by mtime. -/
def repairCandidates (fsm : FsModel) (g : PGraph) (f : FileNode) : List FileNode :=
  sortByMtime ((interCands fsm g f).filter
    (fun f2 => !(decide (f2 = f)) && decide (f2.mtime < f.mtime)))

/-- `f2s_bef = [f2 for f2 in f2s if f2.mtime < self.nodes[s]['run_info']['beg_time']]`
followed by `f2s_bef[-1]` when non-empty. -/
def bestBef (g : PGraph) (f2s : List FileNode) (s : StepId) : Option FileNode :=
  (f2s.filter (fun f2 => decide (f2.mtime < g.stepBeg s))).getLast?

/-- The inner loop `for s in list(self.succ[f])` of
`_reconstruct_missing_connections`: rewire each consumer `s` of the orphan
`f` to the latest candidate whose mtime precedes `s`'s start time,
preserving the edge attributes (`self.add_edge(f2, s, **self.edges[f, s])`),
and remove the original edge.  The consumer list is snapshotted before the
loop; attributes and start times are read from the evolving graph. -/
def rewireConsumers (f2s : List FileNode) (f : FileNode) :
    PGraph → List StepId → PGraph
  | g, [] => g
  | g, s :: rest =>
      match bestBef g f2s s with
      | none => rewireConsumers f2s f g rest
      | some f2 =>
          match g.getEdgeAttrs (Node.fnode f) (Node.snode s) with
          | some a =>
              rewireConsumers f2s f
                (((g.addEdge (Node.fnode f2) (Node.snode s) a)).removeEdge
                  (Node.fnode f) (Node.snode s)) rest
          | none => rewireConsumers f2s f g rest

/-- The body of `_reconstruct_missing_connections`'s outer loop for one file
node `f`: act only when `f` has no predecessor; compute the candidate list
(via the indices, which only depend on the unchanging node set, so they are
passed in as `cands`); when non-empty, rewire `f`'s current consumers. -/
def processOrphan (cands : FileNode → List FileNode) (g : PGraph)
    (f : FileNode) : PGraph :=
  if g.predF f = [] then
    if cands f = [] then g
    else rewireConsumers (cands f) f g (g.succSteps f)
  else g

/-- `_reconstruct_missing_connections`: indices are computed once from the
graph at entry; the file nodes are then processed sequentially in node
(insertion) order, each against the graph state left by its predecessors. -/
def reconstruct_missing_connections (fsm : FsModel) (g : PGraph) : PGraph :=
  g.fnodes.foldl (fun gcur f => processOrphan (repairCandidates fsm g) gcur f) g

/-- The candidate list of `_reconstruct_fnode_maker`:
`[f2 for f2 in (hash2files[f.file_hash] & realpath2files[f.realpath]) if f2 != f]`
-- note: no mtime condition, unlike the load-time repair pass. -/
def makerCandidates (fsm : FsModel) (g : PGraph) (f : FileNode) : List FileNode :=
  (interCands fsm g f).filter (fun f2 => !(decide (f2 = f)))

/-- `_reconstruct_fnode_maker(fnode)`: sort the candidates by mtime and
return the last one (the latest mtime), or `None` when there are none. -/
def reconstruct_fnode_maker (fsm : FsModel) (g : PGraph) (f : FileNode) :
    Option FileNode :=
  (sortByMtime (makerCandidates fsm g f)).getLast?

/-! ### Loading the store (`ProvenanceGraph.load`) -/

/-- Per-file body of the loader's argument loop (lines 534-547): a `files`
entry contributes a node and an edge only when it has all of the keys
`hash fname realpath size`; it is skipped silently otherwise.  Building the
node then subscripts `f['mtime']` directly -- absent `mtime` with present
`size` would be a `KeyError` aborting the load. -/
def addFileEntry (step_id : StepId) (arg : String) (mode : String)
    (meta : List (String × String)) (g : PGraph) (f : FileInfo) :
    Option PGraph :=
  match f.hash, f.fname, f.realpath, f.size with
  | some h, some _, some rp, some _ =>
      match f.mtime with
      | none => none
      | some mt =>
          let fn : FileNode := ⟨rp, h, mt⟩
          let g1 := g.addFNode fn
          let e : Node × Node :=
            if mode = "r" then (Node.fnode fn, Node.snode step_id)
            else (Node.snode step_id, Node.fnode fn)
          some (g1.addEdge e.1 e.2 ⟨arg, meta⟩)
  | _, _, _, _ => some g

/-- `for f in files['files']`. -/
def addFileList (step_id : StepId) (arg : String) (mode : String)
    (meta : List (String × String)) (g : PGraph) (fis : List FileInfo) :
    Option PGraph :=
  fis.foldlM (addFileEntry step_id arg mode meta) g

/-- Per-argument edge metadata from `metadata_from_cmd_line`: entries whose
key starts with `file.<arg>.` attach the suffix as an edge attribute. -/
def edgeMetaFor (mfcl : List (String × String)) (arg : String) :
    List (String × String) :=
  mfcl.filterMap (fun p =>
    let pfx := "file." ++ arg ++ "."
    if p.1.startsWith pfx then some (p.1.drop pfx.length, p.2) else none)

/-- `for files in gather_files(val)`. -/
def addArgFiles (step_id : StepId) (arg : String)
    (mfcl : List (String × String)) (g : PGraph)
    (groups : List (String × List FileInfo)) : Option PGraph :=
  groups.foldlM
    (fun g' grp => addFileList step_id arg grp.1 (edgeMetaFor mfcl arg) g' grp.2) g

/-- One record of the loader's main loop (lines 498-549): skip records that
fail the minimal structural check, failed steps, nested sub-steps and
too-old steps; otherwise add the step node and its file nodes/edges.
Direct subscripts on `run_info` (line 512) and `cmd_name` (line 521) abort
the whole load on records that lack them. -/
def processRecord (now max_age_days : Int) (g : PGraph) (r : RawRecord) :
    Option PGraph :=
  match r.format, r.step with
  | some _, some st =>
      match st.args, st.step_id, st.cmd_module with
      | some args, some step_id, some _ =>
          match st.run_info with
          | none => none
          | some ri =>
              if ri.exception.isSome then some g
              else if (st.enclosing_steps.getD "") ≠ "" then some g
              else if now - ri.beg_time > max_age_days * 86400 then some g
              else
                let mfcl := st.metadata_from_cmd_line.getD []
                match st.cmd_name with
                | none => none
                | some cmd_name =>
                    let step_name :=
                      ((mfcl.find? (fun p => decide (p.1 = "step_name"))).map (·.2)).getD cmd_name
                    let g1 := g.addSNode ⟨step_id, step_name, ri.beg_time⟩
                    args.foldlM
                      (fun g' av => addArgFiles step_id av.1 mfcl g' (gather_files av.2)) g1
      | _, _, _ => some g
  | _, _ => some g

/-- The record-reading loop of `load`, starting from graph `g`. -/
def buildGraphFrom (now max_age_days : Int) (g : PGraph)
    (records : List RawRecord) : Option PGraph :=
  records.foldlM (processRecord now max_age_days) g

/-- `ProvenanceGraph.load(metadata_path, max_age_days)` over the already
listed-and-parsed record files of the store, in directory order.  After the
record loop: `assert self.in_degree[f] <= 1` for every file node (the
commented-out warning was replaced by this assert), the repair pass, and
`assert networkx.algorithms.dag.is_directed_acyclic_graph(self)`.  The
trailing unknown-origin report only logs and is omitted. -/
def PGraph.load (fsm : FsModel) (now max_age_days : Int)
    (records : List RawRecord) : Option PGraph :=
  (buildGraphFrom now max_age_days PGraph.empty records).bind (fun g =>
    if g.fnodes.all (fun f => decide (g.inDegF f ≤ 1)) then
      let g2 := reconstruct_missing_connections fsm g
      if g2.isDAG then some g2 else none
    else none)

/-! ### Recording-side per-file metadata (`FileArg.gather_file_info`) -/

structure StatInfo where
  size : Int
  mtime : Int
deriving DecidableEq, Repr

/-- `file2dict(file_arg)` inside `gather_file_info`: always records `fname`
and the canonical path; the hash only for inputs or when the outputs are
expected to exist; `size`/`mtime` (with ctime, owner, inode, device, which
the loader never reads and which we omit) only when `os.stat` succeeds --
on a stat error only a warning is logged and those keys stay absent.
`hashOf`, `realOf` and `statOf` model `Hasher()`, `os.path.realpath` and
`os.stat`. -/
def file2dict (mode : String) (out_files_exist : Bool)
    (hashOf : String → String) (realOf : String → String)
    (statOf : String → Option StatInfo) (file_arg : String) : FileInfo :=
  let base : FileInfo :=
    { fname := some file_arg, realpath := some (realOf file_arg),
      hash := none, size := none, mtime := none }
  if mode = "r" || out_files_exist then
    let withHash := { base with hash := some (hashOf file_arg) }
    match statOf file_arg with
    | some st => { withHash with size := some st.size, mtime := some st.mtime }
    | none => withHash
  else base

/-! ### Point query (`ProvenanceGraph.print_provenance`)

The caller-side resolution of `fname` to a `FileNode`
(`os.path.realpath`, `Hasher()`, `os.stat`) is external; the query takes
the resolved identity.  The function works on a deep copy of the graph,
adds the queried node if absent, applies `_reconstruct_fnode_maker` when
the node has no producer, asserts the (possibly substituted) node is in the
graph with in-degree exactly 1, and reports the step ancestors. -/

def ancestorSteps (g : PGraph) (n : Node) : List StepId :=
  (g.ancestors n).filterMap (fun m =>
    match m with
    | Node.snode s => some s
    | Node.fnode _ => none)

def print_provenance (fsm : FsModel) (g : PGraph) (f : FileNode) :
    Option (List StepId) :=
  let g1 := g.addFNode f
  let fq : Option FileNode :=
    if g1.inDegF f < 1 then reconstruct_fnode_maker fsm g1 f else some f
  match fq with
  | none => none
  | some f2 =>
      if f2 ∈ g1.fnodes then
        if g1.inDegF f2 = 1 then some (ancestorSteps g1 (Node.fnode f2))
        else none
      else none

/-! ### Comp extraction (`extract_comps_assembly`)

`fnmatch.fnmatch` with the two hard-coded patterns; the patterns use only
literal characters and `*` (which in fnmatch crosses path separators), so a
matcher for exactly that fragment suffices. -/

def globMatchF : Nat → List Char → List Char → Bool
  | 0, _, _ => false
  | _ + 1, [], [] => true
  | _ + 1, [], _ :: _ => false
  | fuel + 1, '*' :: ps, [] => globMatchF fuel ps []
  | fuel + 1, '*' :: ps, c :: cs =>
      globMatchF fuel ps (c :: cs) || globMatchF fuel ('*' :: ps) cs
  | fuel + 1, p :: ps, c :: cs => decide (p = c) && globMatchF fuel ps cs
  | _ + 1, _ :: _, [] => false

/-- Pattern match with literal characters and `*`.  Every recursive step of
the matcher shrinks `|pattern| + |string|`, so fuel `|pattern| + |string| + 1`
is never exhausted (the fuel only keeps the recursion structural). -/
def fnmatchStar (pat s : String) : Bool :=
  globMatchF (pat.length + s.length + 1) pat.toList s.toList

/-- A Comp: a sub-computation slice of the graph with distinguished main
inputs and outputs. -/
structure Comp where
  nodes : List Node
  main_inputs : List FileNode
  main_outputs : List FileNode
deriving DecidableEq, Repr

/-- Python set-style add: append if absent. -/
def setAdd (l : List Node) (n : Node) : List Node :=
  if n ∈ l then l else l ++ [n]

def begNodesOf (g : PGraph) : List FileNode :=
  g.fnodes.filter (fun f => fnmatchStar "*/data/00_raw/*.bam" f.realpath)

def endNodesOf (g : PGraph) : List FileNode :=
  g.fnodes.filter (fun f => fnmatchStar "*/data/02_assembly/*.fasta" f.realpath)

/-- `ancs = ancestors(G, end_node); ancs.add(end_node)`. -/
def compClosure (g : PGraph) (e : FileNode) : List Node :=
  setAdd (g.ancestors (Node.fnode e)) (Node.fnode e)

/-- `beg = beg_nodes & ancs`. -/
def begIn (g : PGraph) (begN : List FileNode) (e : FileNode) : List FileNode :=
  begN.filter (fun b => decide (Node.fnode b ∈ compClosure g e))

/-- `[s for s in list(G.succ[end_node]) if G.nodes[s]['step_name']=='assembly_metrics']`. -/
def metricsOf (g : PGraph) (e : FileNode) : List StepId :=
  (g.succSteps e).filter (fun s => decide (g.stepName s = some "assembly_metrics"))

/-- `sorted(final_assembly_metrics, key=beg_time, reverse=True)[0]`: the
stable descending sort makes this the first element with maximal
`beg_time`. -/
def argmaxBeg (g : PGraph) : List StepId → Option StepId
  | [] => none
  | s :: rest =>
      some (rest.foldl (fun best s2 => if g.stepBeg s2 > g.stepBeg best then s2 else best) s)

/-- The Comp built for end node `e` when the metrics step `m` exists:
`ancs.add(final_assembly_metrics[0]); Comp(nodes=ancs, main_inputs=list(beg),
main_outputs=[end_node])`. -/
def mkComp (g : PGraph) (begN : List FileNode) (e : FileNode) (m : StepId) : Comp :=
  ⟨setAdd (compClosure g e) (Node.snode m), begIn g begN e, [e]⟩

/-- The `for end_node in end_nodes` loop.  `assert len(beg) == 1` failing
(more than one matching input in the closure) aborts the whole extraction;
when no metrics step exists, no Comp is appended for this end node. -/
def extractLoop (g : PGraph) (begN : List FileNode) :
    List FileNode → Option (List Comp)
  | [] => some []
  | e :: rest =>
      let beg := begIn g begN e
      if beg = [] then extractLoop g begN rest
      else if beg.length ≠ 1 then none
      else
        match argmaxBeg g (metricsOf g e) with
        | none => extractLoop g begN rest
        | some m => (extractLoop g begN rest).map (fun cs => mkComp g begN e m :: cs)

def extract_comps_assembly (g : PGraph) : Option (List Comp) :=
  extractLoop g (begNodesOf g) (endNodesOf g)

/-! ### Declarative form of one orphan's rewiring (used to characterize the
imperative consumer loop of the repair pass) -/

/-- Keep an edge during the declarative rewiring of orphan `f` with sorted
candidate list `f2s`, relative to consumer snapshot `L`: an edge is dropped
exactly when it leaves `f` for a consumer in `L` that has a qualifying
candidate. -/
def keepPred (g : PGraph) (f2s : List FileNode) (f : FileNode)
    (L : List StepId) (e : Edge) : Bool :=
  !(decide (e.src = Node.fnode f) &&
    (match e.dst with
     | Node.snode s => decide (s ∈ L) && (bestBef g f2s s).isSome
     | Node.fnode _ => false))

/-- The rewired edges produced for orphan `f`: one per consumer in `L` with
a qualifying candidate, carrying the attributes of the original edge. -/
def rewiredEdges (g : PGraph) (f2s : List FileNode) (f : FileNode)
    (L : List StepId) : List Edge :=
  L.filterMap (fun s =>
    match bestBef g f2s s with
    | none => none
    | some c =>
        (g.getEdgeAttrs (Node.fnode f) (Node.snode s)).map
          (fun a => ⟨Node.fnode c, Node.snode s, a⟩))

/-- The surviving edges for orphan `f`: all edges except those from `f` to a
consumer with a qualifying candidate. -/
def keptEdges (g : PGraph) (f2s : List FileNode) (f : FileNode) : List Edge :=
  g.edges.filter (fun e =>
    !(decide (e.src = Node.fnode f) &&
      (match e.dst with
       | Node.snode s => (bestBef g f2s s).isSome
       | Node.fnode _ => false)))

/-! ### Concrete stores and graphs used as witnesses and counterexamples -/

/-- A filesystem model where no candidate path exists on disk (the same-file
extension of `realpath2files` then never fires). -/
def fsT : FsModel := ⟨fun _ => false, fun _ _ => false⟩

/-- A complete per-file metadata entry for `/p` (hash `h`) at mtime `m`. -/
def fiRead (m : Int) : FileInfo := ⟨some "/p", some "/p", some "h", some 1, some m⟩

/-- A record of step `sid` reading `/p` at mtime `m` (begun at time 20). -/
def recRead (sid : String) (m : Int) : RawRecord :=
  ⟨some "1.0.0", some ⟨some [("i", ArgVal.fileArg "r" [fiRead m])], some sid,
    some "mod", some "c", some ⟨none, 20⟩, none, none⟩⟩

def fiW : FileInfo := ⟨some "/p", some "/p", some "h", some 1, some 5⟩

/-- A record of step `sid` writing `/p` (hash `h`, mtime 5). -/
def recW (sid : String) : RawRecord :=
  ⟨some "1.0.0", some ⟨some [("out", ArgVal.fileArg "w" [fiW])], some sid,
    some "mod", some "c", some ⟨none, 20⟩, none, none⟩⟩

/-- A structurally valid record (has format, step.args, step.step_id,
step.cmd_module and even cmd_name) that lacks the `run_info` key. -/
def recNoRI : RawRecord :=
  ⟨some "1.0.0", some ⟨some [], some "s1", some "mod", some "c", none, none, none⟩⟩

/-- A record failing the minimal structural check (no `format` key). -/
def recInvalid : RawRecord :=
  ⟨none, some ⟨some [], some "s2", some "mod", some "c", some ⟨none, 20⟩, none, none⟩⟩

def fA1 : FileNode := ⟨"/p", "h", 10⟩
def fB1 : FileNode := ⟨"/p", "h", 5⟩
def fC1 : FileNode := ⟨"/p", "h", 3⟩

/-- The graph obtained by loading the store
`[recRead "sA" 10, recRead "sB" 5, recRead "sC" 3]` (checked below): after
the repair pass every consumer has been chain-rewired down to the oldest
node `fC1`. -/
def gC1final : PGraph :=
  ⟨[fA1, fB1, fC1],
   [⟨"sA", "c", 20⟩, ⟨"sB", "c", 20⟩, ⟨"sC", "c", 20⟩],
   [⟨Node.fnode fC1, Node.snode "sC", ⟨"i", []⟩⟩,
    ⟨Node.fnode fC1, Node.snode "sB", ⟨"i", []⟩⟩,
    ⟨Node.fnode fC1, Node.snode "sA", ⟨"i", []⟩⟩]⟩

def fW : FileNode := ⟨"/p", "h", 5⟩

/-- The graph built (before the in-degree assert) from two records that both
claim to have written `/p` with hash `h` at mtime 5. -/
def gAB : PGraph :=
  ⟨[fW], [⟨"sA", "c", 20⟩, ⟨"sB", "c", 20⟩],
   [⟨Node.snode "sA", Node.fnode fW, ⟨"out", []⟩⟩,
    ⟨Node.snode "sB", Node.fnode fW, ⟨"out", []⟩⟩]⟩

/-- The graph loaded from the single-producer store `[recW "sA"]`. -/
def gW3 : PGraph :=
  ⟨[fW], [⟨"sA", "c", 20⟩], [⟨Node.snode "sA", Node.fnode fW, ⟨"out", []⟩⟩]⟩

def f2C4 : FileNode := ⟨"/q", "hq", 50⟩
def fqC4 : FileNode := ⟨"/q", "hq", 10⟩

/-- A graph holding one produced file `/q` (hash `hq`) at mtime 50. -/
def gC4 : PGraph :=
  ⟨[f2C4], [⟨"sp", "c", 1⟩], [⟨Node.snode "sp", Node.fnode f2C4, ⟨"o", []⟩⟩]⟩

def fq0 : FileNode := ⟨"/z", "hz", 0⟩

def fX5 : FileNode := ⟨"/w", "hw", 5⟩
def fY9 : FileNode := ⟨"/w", "hw", 9⟩

/-- A graph with one orphan `fY9` consumed by step `sW`. -/
def gW1 : PGraph :=
  ⟨[fX5, fY9], [⟨"sW", "n", 20⟩], [⟨Node.fnode fY9, Node.snode "sW", ⟨"i", []⟩⟩]⟩

def candsW : FileNode → List FileNode := fun _ => [fX5]

def biC8 : FileNode := ⟨"/data/00_raw/a.bam", "hb", 1⟩
def foC8 : FileNode := ⟨"/data/02_assembly/a.fasta", "hf", 2⟩

/-- Assembly graph without a metrics step: raw bam -> sAsm -> fasta. -/
def gC8 : PGraph :=
  ⟨[biC8, foC8], [⟨"sAsm", "assemble", 5⟩],
   [⟨Node.fnode biC8, Node.snode "sAsm", ⟨"inBam", []⟩⟩,
    ⟨Node.snode "sAsm", Node.fnode foC8, ⟨"outFasta", []⟩⟩]⟩

/-- The same assembly graph with an `assembly_metrics` step consuming the
fasta. -/
def gC8w : PGraph :=
  ⟨[biC8, foC8], [⟨"sAsm", "assemble", 5⟩, ⟨"sMet", "assembly_metrics", 9⟩],
   [⟨Node.fnode biC8, Node.snode "sAsm", ⟨"inBam", []⟩⟩,
    ⟨Node.snode "sAsm", Node.fnode foC8, ⟨"outFasta", []⟩⟩,
    ⟨Node.fnode foC8, Node.snode "sMet", ⟨"inFasta", []⟩⟩]⟩

/-- A file entry whose `os.stat` failed at recording time: `size` and
`mtime` absent. -/
def fiNoStat : FileInfo := ⟨some "/p", some "/p", some "h", none, none⟩

/-! ### Theorems -/

/-- C2 counterexample: with tracking enabled, when the pre-invocation
`reuse_cached_step` call raises (here: error text `boom`), the wrapped
command is NOT invoked and the caller sees the reuse error instead of the
command's own return value -- contradicting the claim that errors in the
reuse consultation are caught and leave the caller-visible outcome
unchanged. -/
theorem c2_counterexample :
    (run_cmd_with_tracking true "" "sid" (Except.error "boom")
      (CmdOutcome.ok (42 : Int)) (Except.ok ())).cmdInvoked = false ∧
    (run_cmd_with_tracking true "" "sid" (Except.error "boom")
      (CmdOutcome.ok (42 : Int)) (Except.ok ())).outcome
      = WrapOutcome.escaped "boom" := by
  decide

/-- C2 (amended): errors during the metadata-recording region (steps 4-6,
inside the inner try of the finally block) are caught and never change the
caller-visible outcome -- the command runs and its return value or
exception is surfaced unchanged for every recording outcome; but an error
raised by the pre-invocation reuse-index consultation is NOT caught: it
propagates to the caller and the wrapped command is never invoked. -/
theorem c2_amended_error_containment (α : Type) (tracking : Bool)
    (save sid : String) (cmd : CmdOutcome α) (recording : Except String Unit)
    (e : String) :
    ((run_cmd_with_tracking tracking save sid (Except.ok ()) cmd recording).outcome
        = outcomeOf cmd ∧
     (run_cmd_with_tracking tracking save sid (Except.ok ()) cmd recording).cmdInvoked
        = true) ∧
    ((run_cmd_with_tracking tracking save sid (Except.error e) cmd recording).outcome
        = WrapOutcome.escaped e ∧
     (run_cmd_with_tracking tracking save sid (Except.error e) cmd recording).cmdInvoked
        = false) := by
  cases cmd <;> simp [run_cmd_with_tracking, outcomeOf]

/-- C6: evaluating the wrapper at the failing input -- a wrapped command
terminated by KeyboardInterrupt with tracking enabled.  Because the
`except Exception` handler does not catch KeyboardInterrupt, `cmd_exception`
stays `None`, the `isinstance(cmd_exception, KeyboardInterrupt)` guard never
fires, and a step record IS written -- with `run_info.exception = None`, as
if the step had succeeded -- while the interrupt propagates to the caller.
The claim (and the code's own comment) say recording is skipped. -/
theorem c6_interrupt_still_records :
    (run_cmd_with_tracking true "" "sid" (Except.ok ())
      (CmdOutcome.kbInt (α := Int)) (Except.ok ())).recorded = some none ∧
    (run_cmd_with_tracking true "" "sid" (Except.ok ())
      (CmdOutcome.kbInt (α := Int)) (Except.ok ())).outcome = WrapOutcome.kbInt ∧
    (run_cmd_with_tracking true "" "sid" (Except.ok ())
      (CmdOutcome.exc "err" (α := Int)) (Except.ok ())).recorded
      = some (some "err") := by
  decide

/-- C9 counterexample: when the pre-invocation reuse-index consultation
raises, the wrapper exits before the try/finally block is entered and the
`VIRAL_NGS_METADATA_STEPS_RUNNING` variable keeps the pushed `step_id`
(prior value was the empty string) -- so the pop does NOT happen on every
exit path. -/
theorem c9_counterexample :
    (run_cmd_with_tracking true "" "sid" (Except.error "boom")
      (CmdOutcome.ok (0 : Int)) (Except.ok ())).stepsRunningAfter = "sid" ∧
    "sid" ≠ "" := by
  decide

/-- C9 (amended): once the try block is entered (the reuse consultation
returned normally), the environment variable is restored to its prior value
on every exit path -- command success, command exception,
KeyboardInterrupt, and any recording outcome; but an exception escaping the
pre-invocation reuse-index consultation exits before the try block and
leaves the pushed value in place. -/
theorem c9_amended_steps_stack_restore (α : Type) (tracking : Bool)
    (save sid : String) (cmd : CmdOutcome α) (recording : Except String Unit)
    (e : String) :
    (run_cmd_with_tracking tracking save sid (Except.ok ()) cmd recording).stepsRunningAfter
      = save ∧
    (run_cmd_with_tracking tracking save sid (Except.error e) cmd recording).stepsRunningAfter
      = pushStep save sid := by
  cases cmd <;> simp [run_cmd_with_tracking]

/-- A file entry missing one of the keys `hash fname realpath size` is
skipped by the loader's per-file branch. -/
theorem addFileEntry_skip (sid arg mode : String) (meta : List (String × String))
    (g : PGraph) (fi : FileInfo)
    (h : (fi.hash.isSome && fi.fname.isSome && fi.realpath.isSome && fi.size.isSome) = false) :
    addFileEntry sid arg mode meta g fi = some g := by
  unfold addFileEntry
  cases hh : fi.hash <;> cases hf : fi.fname <;> cases hr : fi.realpath <;>
    cases hs : fi.size <;> simp_all

/-- C10: a per-file metadata entry contributes a file node and an edge only
if it carries all four keys `hash fname realpath size`; in particular an
entry whose `os.stat` failed at recording time (produced by `file2dict`
with a failing stat, hence lacking `size` and `mtime`) is silently dropped
from the loader's fold, so the surviving step keeps fewer file edges than
its file arguments denote. -/
theorem c10_file_entry_keys (sid arg mode : String)
    (meta : List (String × String)) (g : PGraph) (fi : FileInfo)
    (rest : List FileInfo) :
    ((fi.hash.isSome && fi.fname.isSome && fi.realpath.isSome && fi.size.isSome) = false →
      addFileList sid arg mode meta g (fi :: rest) = addFileList sid arg mode meta g rest) ∧
    (∀ (mode1 : String) (oe : Bool) (hashOf realOf : String → String)
       (statOf : String → Option StatInfo) (path : String),
       statOf path = none → fi = file2dict mode1 oe hashOf realOf statOf path →
       addFileList sid arg mode meta g (fi :: rest) = addFileList sid arg mode meta g rest) := by
  constructor
  · intro h
    simp [addFileList, addFileEntry_skip sid arg mode meta g fi h]
  · intro mode1 oe hashOf realOf statOf path hstat hfi
    have hsz : fi.size = none := by
      subst hfi
      unfold file2dict
      split
      · simp [hstat]
      · rfl
    have hkeys : (fi.hash.isSome && fi.fname.isSome && fi.realpath.isSome && fi.size.isSome) = false := by
      simp [hsz]
    simp [addFileList, addFileEntry_skip sid arg mode meta g fi hkeys]

/-- C10 witness: a concrete entry lacking `size`/`mtime` (first conjunct)
and a concrete `file2dict` output under a failing stat (second conjunct)
both leave the loader's fold unchanged. -/
theorem c10_witness :
    (addFileList "s1" "a" "r" [] PGraph.empty [fiNoStat]
      = addFileList "s1" "a" "r" [] PGraph.empty []) ∧
    (addFileList "s1" "a" "r" [] PGraph.empty
        [file2dict "w" false (fun _ => "h") (fun p => p) (fun _ => none) "/p"]
      = addFileList "s1" "a" "r" [] PGraph.empty []) :=
  ⟨(c10_file_entry_keys "s1" "a" "r" [] PGraph.empty fiNoStat []).1 (by decide),
   (c10_file_entry_keys "s1" "a" "r" [] PGraph.empty
      (file2dict "w" false (fun _ => "h") (fun p => p) (fun _ => none) "/p") []).2
     "w" false (fun _ => "h") (fun p => p) (fun _ => none) "/p" rfl rfl⟩

/-- C7 counterexample: a record that passes `is_valid_step_record` (it has
format, step.args, step.step_id, step.cmd_module) but lacks the optional
field `run_info` does not get a default: the direct subscript
`step_record['step']['run_info']` raises and the whole load aborts, instead
of the record being accepted with defaults. -/
theorem c7_counterexample :
    is_valid_step_record recNoRI = true ∧
    PGraph.load fsT 20 10000 [recNoRI] = none := by
  decide

/-- C7 (amended): records failing the minimal required-key check
`{format, step.args, step.step_id, step.cmd_module}` are skipped (the load
continues unchanged); defaults are supplied only for `enclosing_steps` and
`metadata_from_cmd_line`, while a structurally valid record missing
`run_info` makes the whole load raise (abort) rather than being accepted
with defaults. -/
theorem c7_amended_loader_tolerance (now mad : Int) (g : PGraph)
    (r : RawRecord) (rs : List RawRecord) :
    (is_valid_step_record r = false →
      buildGraphFrom now mad g (r :: rs) = buildGraphFrom now mad g rs) ∧
    (∀ st, r.step = some st → is_valid_step_record r = true → st.run_info = none →
      buildGraphFrom now mad g (r :: rs) = none) := by
  obtain ⟨rfmt, rstp⟩ := r
  constructor
  · intro h
    have hskip : processRecord now mad g ⟨rfmt, rstp⟩ = some g := by
      cases rfmt with
      | none => rfl
      | some fmt =>
        cases rstp with
        | none => rfl
        | some st =>
          obtain ⟨sargs, sid, smod, sname, sri, senc, smfcl⟩ := st
          simp only [is_valid_step_record, Option.isSome_some, Bool.true_and] at h
          cases sargs with
          | none => rfl
          | some args =>
            cases sid with
            | none => rfl
            | some i =>
              cases smod with
              | none => rfl
              | some m => simp at h
    simp [buildGraphFrom, hskip]
  · intro st hstp hval hri
    replace hstp : rstp = some st := hstp
    subst hstp
    obtain ⟨sargs, sid, smod, sname, sri, senc, smfcl⟩ := st
    replace hri : sri = none := hri
    cases sri with
    | some x => exact Option.noConfusion hri
    | none =>
    have habort : processRecord now mad g ⟨rfmt, some ⟨sargs, sid, smod, sname, none, senc, smfcl⟩⟩ = none := by
      cases rfmt with
      | none => simp [is_valid_step_record] at hval
      | some fmt =>
        cases sargs with
        | none => simp [is_valid_step_record] at hval
        | some args =>
          cases sid with
          | none => simp [is_valid_step_record] at hval
          | some i =>
            cases smod with
            | none => simp [is_valid_step_record] at hval
            | some m => rfl
    simp [buildGraphFrom, habort]

/-- C7 witness: a concrete invalid record is skipped; the concrete valid
record without `run_info` aborts the load. -/
theorem c7_witness :
    (buildGraphFrom 0 0 PGraph.empty [recInvalid] = buildGraphFrom 0 0 PGraph.empty []) ∧
    buildGraphFrom 0 0 PGraph.empty [recNoRI] = none :=
  ⟨(c7_amended_loader_tolerance 0 0 PGraph.empty recInvalid []).1 (by decide),
   (c7_amended_loader_tolerance 0 0 PGraph.empty recNoRI []).2
     ⟨some [], some "s1", some "mod", some "c", none, none, none⟩ rfl (by decide) rfl⟩

/-- C5 counterexample: a store whose two records both claim to have written
the identical (path, hash, mtime) triple builds a graph with a file node of
in-degree 2, and loading it FAILS (the active `assert self.in_degree[f] <= 1`;
the warning branch is commented out) instead of warning and continuing. -/
theorem c5_counterexample :
    buildGraphFrom 20 10000 PGraph.empty [recW "sA", recW "sB"] = some gAB ∧
    gAB.inDegF fW = 2 ∧
    PGraph.load fsT 20 10000 [recW "sA", recW "sB"] = none := by
  decide

/-- C5 (amended): a file node with in-degree greater than 1 after the
record-reading loop is fatal: the load asserts and produces no graph (the
in-degree warning exists only in commented-out code and in a post-repair
check that the earlier assert makes unreachable). -/
theorem c5_amended_indegree_fatal (fsm : FsModel) (now mad : Int)
    (rs : List RawRecord) (g : PGraph) (f : FileNode)
    (hb : buildGraphFrom now mad PGraph.empty rs = some g)
    (hf : f ∈ g.fnodes) (hdeg : 1 < g.inDegF f) :
    PGraph.load fsm now mad rs = none := by
  unfold PGraph.load
  rw [hb, Option.some_bind]
  cases hall : g.fnodes.all (fun f => decide (g.inDegF f ≤ 1)) with
  | false => rfl
  | true =>
    exfalso
    have := List.all_eq_true.mp hall f hf
    simp at this
    omega

/-- C5 witness: the amended statement applied to the concrete two-producer
store. -/
theorem c5_witness : PGraph.load fsT 20 10000 [recW "sA", recW "sB"] = none :=
  c5_amended_indegree_fatal fsT 20 10000 [recW "sA", recW "sB"] gAB fW
    (by decide) (by decide) (by decide)

/-- The extraction loop, under the no-assert-failure hypothesis, equals a
filterMap over the end nodes. -/
theorem extractLoop_eq (g : PGraph) (begN : List FileNode) :
    ∀ es : List FileNode, (∀ e ∈ es, (begIn g begN e).length ≤ 1) →
    extractLoop g begN es = some (es.filterMap (fun e =>
      if begIn g begN e = [] then none
      else
        match argmaxBeg g (metricsOf g e) with
        | none => none
        | some m => some (mkComp g begN e m))) := by
  intro es
  induction es with
  | nil => intro _; rfl
  | cons e rest ih =>
    intro h
    have hrest := ih (fun x hx => h x (List.mem_cons_of_mem _ hx))
    have he := h e (List.mem_cons_self _ _)
    unfold extractLoop
    by_cases hbeg : begIn g begN e = []
    · simp [hbeg, hrest]
    · have hlen : (begIn g begN e).length = 1 := by
        have h0 : (begIn g begN e).length ≠ 0 := by
          simpa [List.length_eq_zero] using hbeg
        omega
      rw [if_neg hbeg, if_neg (by omega : ¬(begIn g begN e).length ≠ 1)]
      cases hm : argmaxBeg g (metricsOf g e) with
      | none => simp [hrest, List.filterMap_cons, hbeg, hm]
      | some m => simp [hrest, List.filterMap_cons, hbeg, hm]

/-- C8 (amended): provided no end node's closure holds more than one
input-pattern node (otherwise `assert len(beg) == 1` aborts the whole
extraction), a Comp is formed for an output-pattern node exactly when its
closure contains exactly one input-pattern node AND at least one directly
dependent `assembly_metrics` step exists; the Comp then has that input as
its main input, the output as its main output, and nodes = the closure plus
the first-listed metrics step with the latest start time.  When no metrics
step exists, no Comp is formed for that output (not the closure alone, as
claimed). -/
theorem c8_amended_comp_extraction (g : PGraph)
    (h : ∀ e ∈ endNodesOf g, (begIn g (begNodesOf g) e).length ≤ 1) :
    extract_comps_assembly g = some ((endNodesOf g).filterMap (fun e =>
      if begIn g (begNodesOf g) e = [] then none
      else
        match argmaxBeg g (metricsOf g e) with
        | none => none
        | some m => some (mkComp g (begNodesOf g) e m))) := by
  unfold extract_comps_assembly
  exact extractLoop_eq g (begNodesOf g) (endNodesOf g) h

/-- C8 witness: the amended statement applied to the concrete assembly
graph with a metrics step. -/
theorem c8_witness :
    extract_comps_assembly gC8w = some ((endNodesOf gC8w).filterMap (fun e =>
      if begIn gC8w (begNodesOf gC8w) e = [] then none
      else
        match argmaxBeg gC8w (metricsOf gC8w e) with
        | none => none
        | some m => some (mkComp gC8w (begNodesOf gC8w) e m))) :=
  c8_amended_comp_extraction gC8w (by decide)

/-- C8 counterexample: in `gC8` the fasta node matches the output pattern
and its closure contains exactly one input-pattern node, yet no Comp is
formed, because no `assembly_metrics` step consumes the fasta -- refuting
the claim that the closure alone then forms the Comp. -/
theorem c8_counterexample :
    endNodesOf gC8 = [foC8] ∧
    begIn gC8 (begNodesOf gC8) foC8 = [biC8] ∧
    metricsOf gC8 foC8 = [] ∧
    extract_comps_assembly gC8 = some [] := by
  decide

/-- The last element reported by `getLast?` is a member of the list. -/
theorem getLastq_mem {α : Type} : ∀ {l : List α} {m : α}, l.getLast? = some m → m ∈ l := by
  intro l
  induction l with
  | nil => intro m h; simp at h
  | cons a t ih =>
    intro m h
    cases t with
    | nil =>
      simp only [List.getLast?_singleton, Option.some.injEq] at h
      simp [h]
    | cons b t' =>
      rw [List.getLast?_cons_cons] at h
      exact List.mem_cons_of_mem _ (ih h)

theorem mem_insertByMtime {x a : FileNode} :
    ∀ {l : List FileNode}, a ∈ insertByMtime x l ↔ a = x ∨ a ∈ l := by
  intro l
  induction l with
  | nil => simp [insertByMtime]
  | cons y ys ih =>
    unfold insertByMtime
    by_cases h : x.mtime ≤ y.mtime
    · rw [if_pos h]
      simp [List.mem_cons]
    · rw [if_neg h]
      simp only [List.mem_cons, ih]
      tauto

theorem mem_sortByMtime {a : FileNode} :
    ∀ {l : List FileNode}, a ∈ sortByMtime l ↔ a ∈ l := by
  intro l
  induction l with
  | nil => simp [sortByMtime]
  | cons y ys ih =>
    unfold sortByMtime
    rw [mem_insertByMtime]
    simp [List.mem_cons, ih]

theorem insertByMtime_ne_nil (x : FileNode) :
    ∀ (l : List FileNode), insertByMtime x l ≠ [] := by
  intro l
  cases l with
  | nil => simp [insertByMtime]
  | cons y ys =>
    unfold insertByMtime
    by_cases h : x.mtime ≤ y.mtime
    · rw [if_pos h]; simp
    · rw [if_neg h]; simp

theorem sortByMtime_eq_nil {l : List FileNode} :
    sortByMtime l = [] ↔ l = [] := by
  cases l with
  | nil => simp [sortByMtime]
  | cons y ys =>
    unfold sortByMtime
    simp [insertByMtime_ne_nil]

theorem pairwise_insertByMtime {x : FileNode} :
    ∀ {l : List FileNode}, l.Pairwise (fun a b => a.mtime ≤ b.mtime) →
      (insertByMtime x l).Pairwise (fun a b => a.mtime ≤ b.mtime) := by
  intro l
  induction l with
  | nil => intro _; simp [insertByMtime]
  | cons y ys ih =>
    intro h
    rcases List.pairwise_cons.mp h with ⟨hy, hys⟩
    unfold insertByMtime
    by_cases hx : x.mtime ≤ y.mtime
    · rw [if_pos hx]
      refine List.pairwise_cons.mpr ⟨?_, h⟩
      intro z hz
      rcases List.mem_cons.mp hz with rfl | hz
      · exact hx
      · exact le_trans hx (hy z hz)
    · rw [if_neg hx]
      refine List.pairwise_cons.mpr ⟨?_, ih hys⟩
      intro z hz
      rcases mem_insertByMtime.mp hz with rfl | hz
      · exact le_of_not_le hx
      · exact hy z hz

theorem pairwise_sortByMtime :
    ∀ (l : List FileNode), (sortByMtime l).Pairwise (fun a b => a.mtime ≤ b.mtime) := by
  intro l
  induction l with
  | nil => simp [sortByMtime]
  | cons y ys ih => exact pairwise_insertByMtime ih

theorem pairwise_getLast_max :
    ∀ {l : List FileNode} {m : FileNode},
      l.Pairwise (fun a b => a.mtime ≤ b.mtime) → l.getLast? = some m →
      ∀ x ∈ l, x.mtime ≤ m.mtime := by
  intro l
  induction l with
  | nil => intro m _ h; simp at h
  | cons y ys ih =>
    intro m hp hl x hx
    rcases List.pairwise_cons.mp hp with ⟨hy, hp'⟩
    cases ys with
    | nil =>
      simp only [List.getLast?_singleton, Option.some.injEq] at hl
      subst hl
      rcases List.mem_cons.mp hx with rfl | hx'
      · exact le_refl _
      · simp at hx'
    | cons z zs =>
      rw [List.getLast?_cons_cons] at hl
      rcases List.mem_cons.mp hx with rfl | hx'
      · exact hy m (getLastq_mem hl)
      · exact ih hp' hl x hx'

/-- C4 counterexample: in `gC4` no node has mtime strictly earlier than the
queried file's (mtime 10), so by the claim the substitute search must fail
and the query must end in an assertion failure; instead the code substitutes
the LATER node `f2C4` (mtime 50, same hash and path) and the query succeeds,
returning its producer -- `_reconstruct_fnode_maker` has no mtime filter. -/
theorem c4_counterexample :
    (∀ f3 ∈ gC4.fnodes, ¬(f3.mtime < fqC4.mtime)) ∧
    f2C4.mtime > fqC4.mtime ∧
    print_provenance fsT gC4 fqC4 = some ["sp"] := by
  decide

/-- C4 (amended): the point-query repair accepts a substitute node iff one
exists sharing the queried file's content hash and path-equivalence class
(any mtime -- unlike the load-time repair pass, there is no
strictly-earlier-mtime requirement), choosing a candidate with maximal
mtime; when no substitute exists and the node has no producer, the query
fails (assertion), and on success the ancestor steps are returned. -/
theorem c4_amended_query_repair (fsm : FsModel) (g : PGraph) (f : FileNode) :
    (reconstruct_fnode_maker fsm g f = none ↔ makerCandidates fsm g f = []) ∧
    (∀ f2, reconstruct_fnode_maker fsm g f = some f2 →
       f2 ∈ makerCandidates fsm g f ∧ f2.file_hash = f.file_hash ∧ f2 ≠ f ∧
       ∀ f3 ∈ makerCandidates fsm g f, f3.mtime ≤ f2.mtime) ∧
    ((g.addFNode f).inDegF f < 1 →
      reconstruct_fnode_maker fsm (g.addFNode f) f = none →
      print_provenance fsm g f = none) := by
  refine ⟨?_, ?_, ?_⟩
  · unfold reconstruct_fnode_maker
    rw [List.getLast?_eq_none_iff, sortByMtime_eq_nil]
  · intro f2 h
    have hmem : f2 ∈ makerCandidates fsm g f :=
      mem_sortByMtime.mp (getLastq_mem h)
    have hinter : f2 ∈ interCands fsm g f ∧ (!(decide (f2 = f))) = true := by
      simpa using List.mem_filter.mp hmem
    have hhash : f2.file_hash = f.file_hash := by
      have := (List.mem_filter.mp hinter.1).1
      have := (List.mem_filter.mp this).2
      simpa using this
    refine ⟨hmem, hhash, by simpa using hinter.2, ?_⟩
    intro f3 hf3
    exact pairwise_getLast_max (pairwise_sortByMtime _) h f3 (mem_sortByMtime.mpr hf3)
  · intro hdeg hnone
    simp [print_provenance, hdeg, hnone]

/-- C4 witness: the amended statement applied to `gC4` (substitute found,
with maximal mtime) and to the empty graph (no substitute: query fails). -/
theorem c4_witness :
    (f2C4 ∈ makerCandidates fsT gC4 fqC4 ∧ f2C4.file_hash = fqC4.file_hash ∧
      f2C4 ≠ fqC4 ∧ ∀ f3 ∈ makerCandidates fsT gC4 fqC4, f3.mtime ≤ f2C4.mtime) ∧
    print_provenance fsT PGraph.empty fq0 = none :=
  ⟨(c4_amended_query_repair fsT gC4 fqC4).2.1 f2C4 (by decide),
   (c4_amended_query_repair fsT PGraph.empty fq0).2.2 (by decide) (by decide)⟩

theorem addEdge_fnodes (g : PGraph) (u v : Node) (a : EdgeAttrs) :
    (g.addEdge u v a).fnodes = g.fnodes := by
  unfold PGraph.addEdge
  split <;> rfl

theorem addEdge_snodes (g : PGraph) (u v : Node) (a : EdgeAttrs) :
    (g.addEdge u v a).snodes = g.snodes := by
  unfold PGraph.addEdge
  split <;> rfl

theorem removeEdge_fnodes (g : PGraph) (u v : Node) :
    (g.removeEdge u v).fnodes = g.fnodes := rfl

theorem removeEdge_snodes (g : PGraph) (u v : Node) :
    (g.removeEdge u v).snodes = g.snodes := rfl

/-- Adding an edge whose destination is a step node never changes a file
node's in-degree. -/
theorem inDegF_addEdge_to_snode (g : PGraph) (u : Node) (s : StepId)
    (a : EdgeAttrs) (f' : FileNode) :
    (g.addEdge u (Node.snode s) a).inDegF f' = g.inDegF f' := by
  unfold PGraph.addEdge PGraph.inDegF
  split
  · rw [List.countP_map]
    apply List.countP_congr
    intro e _
    by_cases hc : e.src = u ∧ e.dst = Node.snode s
    · simp [hc]
    · simp [hc]
  · rw [List.countP_append]
    simp

/-- Removing an edge whose destination is a step node never changes a file
node's in-degree. -/
theorem inDegF_removeEdge_to_snode (g : PGraph) (u : Node) (s : StepId)
    (f' : FileNode) :
    (g.removeEdge u (Node.snode s)).inDegF f' = g.inDegF f' := by
  unfold PGraph.removeEdge PGraph.inDegF
  rw [List.countP_filter]
  apply List.countP_congr
  intro e _
  by_cases hd : e.dst = Node.fnode f'
  · simp [hd]
  · simp [hd]

theorem rewireConsumers_inDegF (f2s : List FileNode) (f f' : FileNode) :
    ∀ (L : List StepId) (g : PGraph),
      (rewireConsumers f2s f g L).inDegF f' = g.inDegF f' := by
  intro L
  induction L with
  | nil => intro g; rfl
  | cons s rest ih =>
    intro g
    unfold rewireConsumers
    cases hb : bestBef g f2s s with
    | none => exact ih g
    | some c =>
      cases ha : g.getEdgeAttrs (Node.fnode f) (Node.snode s) with
      | none => exact ih g
      | some a =>
        rw [ih _, inDegF_removeEdge_to_snode, inDegF_addEdge_to_snode]

theorem rewireConsumers_fnodes (f2s : List FileNode) (f : FileNode) :
    ∀ (L : List StepId) (g : PGraph),
      (rewireConsumers f2s f g L).fnodes = g.fnodes := by
  intro L
  induction L with
  | nil => intro g; rfl
  | cons s rest ih =>
    intro g
    unfold rewireConsumers
    cases hb : bestBef g f2s s with
    | none => exact ih g
    | some c =>
      cases ha : g.getEdgeAttrs (Node.fnode f) (Node.snode s) with
      | none => exact ih g
      | some a =>
        rw [ih _, removeEdge_fnodes, addEdge_fnodes]

theorem rewireConsumers_snodes (f2s : List FileNode) (f : FileNode) :
    ∀ (L : List StepId) (g : PGraph),
      (rewireConsumers f2s f g L).snodes = g.snodes := by
  intro L
  induction L with
  | nil => intro g; rfl
  | cons s rest ih =>
    intro g
    unfold rewireConsumers
    cases hb : bestBef g f2s s with
    | none => exact ih g
    | some c =>
      cases ha : g.getEdgeAttrs (Node.fnode f) (Node.snode s) with
      | none => exact ih g
      | some a =>
        rw [ih _, removeEdge_snodes, addEdge_snodes]

theorem processOrphan_inDegF (c : FileNode → List FileNode) (g : PGraph)
    (f f' : FileNode) : (processOrphan c g f).inDegF f' = g.inDegF f' := by
  unfold processOrphan
  split
  · split
    · rfl
    · rw [rewireConsumers_inDegF]
  · rfl

theorem processOrphan_fnodes (c : FileNode → List FileNode) (g : PGraph)
    (f : FileNode) : (processOrphan c g f).fnodes = g.fnodes := by
  unfold processOrphan
  split
  · split
    · rfl
    · rw [rewireConsumers_fnodes]
  · rfl

theorem foldl_processOrphan_inDegF (c : FileNode → List FileNode)
    (f' : FileNode) :
    ∀ (l : List FileNode) (g : PGraph),
      (l.foldl (fun gcur f => processOrphan c gcur f) g).inDegF f' = g.inDegF f' := by
  intro l
  induction l with
  | nil => intro g; rfl
  | cons x xs ih =>
    intro g
    rw [List.foldl_cons, ih, processOrphan_inDegF]

theorem foldl_processOrphan_fnodes (c : FileNode → List FileNode) :
    ∀ (l : List FileNode) (g : PGraph),
      (l.foldl (fun gcur f => processOrphan c gcur f) g).fnodes = g.fnodes := by
  intro l
  induction l with
  | nil => intro g; rfl
  | cons x xs ih =>
    intro g
    rw [List.foldl_cons, ih, processOrphan_fnodes]

theorem reconstruct_inDegF (fsm : FsModel) (g : PGraph) (f' : FileNode) :
    (reconstruct_missing_connections fsm g).inDegF f' = g.inDegF f' :=
  foldl_processOrphan_inDegF (repairCandidates fsm g) f' g.fnodes g

theorem reconstruct_fnodes (fsm : FsModel) (g : PGraph) :
    (reconstruct_missing_connections fsm g).fnodes = g.fnodes :=
  foldl_processOrphan_fnodes (repairCandidates fsm g) g.fnodes g

/-- C3: every graph produced by a successful load (record loop, in-degree
assert, repair pass, DAG assert) has in-degree at most 1 at every file
node: the assert checks it before repair, and the repair pass only adds
and removes edges whose destination is a step node, so file-node in-degrees
are unchanged. -/
theorem c3_in_degree_invariant (fsm : FsModel) (now mad : Int)
    (records : List RawRecord) (g' : PGraph)
    (h : PGraph.load fsm now mad records = some g') :
    ∀ f ∈ g'.fnodes, g'.inDegF f ≤ 1 := by
  intro f hf
  unfold PGraph.load at h
  cases hb : buildGraphFrom now mad PGraph.empty records with
  | none => rw [hb] at h; simp at h
  | some g =>
    rw [hb, Option.some_bind] at h
    by_cases hall : (g.fnodes.all fun f => decide (g.inDegF f ≤ 1)) = true
    · rw [if_pos hall] at h
      have hg' : g' = reconstruct_missing_connections fsm g := by
        by_cases hd : (reconstruct_missing_connections fsm g).isDAG = true
        · rw [if_pos hd] at h
          exact (Option.some.inj h).symm
        · rw [if_neg hd] at h
          exact absurd h (by simp)
      subst hg'
      rw [reconstruct_inDegF]
      have hf' : f ∈ g.fnodes := by
        rw [← reconstruct_fnodes fsm g]
        exact hf
      have := List.all_eq_true.mp hall f hf'
      simpa using this
    · rw [if_neg hall] at h
      simp at h

/-- C3 witness: the invariant evaluated on the concrete single-producer
store. -/
theorem c3_witness : gW3.inDegF fW ≤ 1 :=
  c3_in_degree_invariant fsT 20 10000 [recW "sA"] gW3 (by decide) fW (by decide)

theorem bestBef_congr {g g' : PGraph} (h : g'.snodes = g.snodes)
    (f2s : List FileNode) (s : StepId) : bestBef g' f2s s = bestBef g f2s s := by
  unfold bestBef PGraph.stepBeg
  rw [h]

theorem find?_filter_of_imp {α : Type} (p q : α → Bool)
    (h : ∀ e, p e = true → q e = true) :
    ∀ l : List α, List.find? p (l.filter q) = List.find? p l := by
  intro l
  induction l with
  | nil => rfl
  | cons e t ih =>
    by_cases hq : q e = true
    · rw [List.filter_cons_of_pos hq]
      by_cases hp : p e = true
      · rw [List.find?_cons_of_pos _ hp, List.find?_cons_of_pos _ hp]
      · rw [List.find?_cons_of_neg _ (by simpa using hp),
            List.find?_cons_of_neg _ (by simpa using hp)]
        exact ih
    · have hp : ¬p e = true := fun hpe => hq (h e hpe)
      rw [List.filter_cons_of_neg (by simpa using hq),
          List.find?_cons_of_neg _ (by simpa using hp)]
      exact ih

theorem getEdgeAttrs_eq_none_iff (g : PGraph) (u v : Node) :
    g.getEdgeAttrs u v = none ↔ ∀ e ∈ g.edges, ¬(e.src = u ∧ e.dst = v) := by
  unfold PGraph.getEdgeAttrs
  rw [Option.map_eq_none', List.find?_eq_none]
  constructor
  · intro h e he h2
    have h3 := h e he
    simp only [Bool.and_eq_true, decide_eq_true_eq] at h3
    exact h3 ⟨h2.1, h2.2⟩
  · intro h e he
    simp only [Bool.and_eq_true, decide_eq_true_eq]
    exact h e he

theorem hasEdge_eq_false (g : PGraph) (u v : Node)
    (h : g.getEdgeAttrs u v = none) : g.hasEdge u v = false := by
  unfold PGraph.hasEdge
  rw [List.any_eq_false]
  intro e he
  have h2 := (getEdgeAttrs_eq_none_iff g u v).mp h e he
  simp only [Bool.and_eq_true, decide_eq_true_eq]
  exact h2

/-- Shape of the edge list after one `add_edge(f2, s, **attrs); remove_edge(f, s)`
rewiring step: the `(f, s)` edge disappears and the new edge is appended. -/
theorem rewire_edges_shape (g : PGraph) (f c : FileNode) (s : StepId)
    (a : EdgeAttrs) (hcf : c ≠ f)
    (hne : g.hasEdge (Node.fnode c) (Node.snode s) = false) :
    ((g.addEdge (Node.fnode c) (Node.snode s) a).removeEdge
        (Node.fnode f) (Node.snode s)).edges
      = g.edges.filter
          (fun e => !(decide (e.src = Node.fnode f) && decide (e.dst = Node.snode s)))
        ++ [⟨Node.fnode c, Node.snode s, a⟩] := by
  unfold PGraph.addEdge
  rw [if_neg (by simp [hne])]
  unfold PGraph.removeEdge
  show List.filter _ (g.edges ++ [⟨Node.fnode c, Node.snode s, a⟩]) = _
  rw [List.filter_append]
  congr 1
  simp [hcf]

theorem rewire_snodes (g : PGraph) (u v u2 v2 : Node) (a : EdgeAttrs) :
    ((g.addEdge u v a).removeEdge u2 v2).snodes = g.snodes := by
  rw [removeEdge_snodes, addEdge_snodes]

/-- Rewiring one consumer `s` leaves every edge lookup keyed by a different
step `s'` unchanged. -/
theorem getEdgeAttrs_rewire_of_ne (g : PGraph) (f c : FileNode) (s : StepId)
    (a : EdgeAttrs) (hcf : c ≠ f)
    (hne : g.hasEdge (Node.fnode c) (Node.snode s) = false)
    (u : Node) (s' : StepId) (hss : s' ≠ s) :
    ((g.addEdge (Node.fnode c) (Node.snode s) a).removeEdge
        (Node.fnode f) (Node.snode s)).getEdgeAttrs u (Node.snode s')
      = g.getEdgeAttrs u (Node.snode s') := by
  unfold PGraph.getEdgeAttrs
  rw [rewire_edges_shape g f c s a hcf hne, List.find?_append]
  have h1 : List.find? (fun e : Edge => decide (e.src = u) && decide (e.dst = Node.snode s'))
      [⟨Node.fnode c, Node.snode s, a⟩] = none := by
    simp [Ne.symm hss]
  rw [h1, Option.or_none]
  congr 1
  apply find?_filter_of_imp
  intro e hpe
  simp only [Bool.and_eq_true, decide_eq_true_eq] at hpe
  simp [hpe.2, hss]

theorem keepPred_snodes_congr {g g' : PGraph} (h : g'.snodes = g.snodes)
    (f2s : List FileNode) (f : FileNode) (L : List StepId) (e : Edge) :
    keepPred g' f2s f L e = keepPred g f2s f L e := by
  unfold keepPred
  cases hd : e.dst with
  | fnode _ => rfl
  | snode s => simp only [bestBef_congr h]

theorem keepPred_cons_none {g : PGraph} {f2s : List FileNode} {f : FileNode}
    {s : StepId} {rest : List StepId} (hb : bestBef g f2s s = none) (e : Edge) :
    keepPred g f2s f rest e = keepPred g f2s f (s :: rest) e := by
  unfold keepPred
  cases hd : e.dst with
  | fnode _ => rfl
  | snode s' =>
    by_cases hss : s' = s
    · subst hss
      simp [hb]
    · simp [List.mem_cons, hss]

theorem keepPred_cons_some_nokey {g : PGraph} {f2s : List FileNode}
    {f : FileNode} {s : StepId} {rest : List StepId} {c : FileNode}
    (hb : bestBef g f2s s = some c) (e : Edge)
    (hnk : ¬(e.src = Node.fnode f ∧ e.dst = Node.snode s)) :
    keepPred g f2s f rest e = keepPred g f2s f (s :: rest) e := by
  unfold keepPred
  cases hd : e.dst with
  | fnode _ => rfl
  | snode s' =>
    by_cases hss : s' = s
    · subst hss
      have hsrc : ¬(e.src = Node.fnode f) := fun hh => hnk ⟨hh, hd⟩
      simp [hsrc]
    · simp [List.mem_cons, hss]

theorem keepPred_combine {g : PGraph} {f2s : List FileNode} {f : FileNode}
    {s : StepId} {rest : List StepId} {c : FileNode}
    (hb : bestBef g f2s s = some c) (hs : s ∉ rest) (e : Edge) :
    (keepPred g f2s f rest e &&
      !(decide (e.src = Node.fnode f) && decide (e.dst = Node.snode s))) =
      keepPred g f2s f (s :: rest) e := by
  unfold keepPred
  cases hd : e.dst with
  | fnode v => simp
  | snode s' =>
    by_cases hss : s' = s
    · subst hss
      simp [hb, hs]
    · simp [List.mem_cons, hss]

theorem rewiredEdges_congr {g g' : PGraph} (f2s : List FileNode) (f : FileNode)
    (hsn : g'.snodes = g.snodes) :
    ∀ (L : List StepId),
      (∀ s ∈ L, g'.getEdgeAttrs (Node.fnode f) (Node.snode s)
          = g.getEdgeAttrs (Node.fnode f) (Node.snode s)) →
      rewiredEdges g' f2s f L = rewiredEdges g f2s f L := by
  intro L
  induction L with
  | nil => intro _; rfl
  | cons s t ih =>
    intro h
    have hs := h s (List.mem_cons_self _ _)
    have ihh := ih (fun x hx => h x (List.mem_cons_of_mem _ hx))
    unfold rewiredEdges at ihh ⊢
    simp only [List.filterMap_cons]
    simp only [bestBef_congr hsn] at ihh ⊢
    cases hb : bestBef g f2s s with
    | none => exact ihh
    | some cc => rw [hs, ihh]

/-- Characterization of the consumer-rewiring loop: processing the consumer
snapshot `L` (no duplicates; chosen candidates are distinct from the orphan
and not already wired to their consumer) replaces, for every consumer with a
qualifying candidate, the orphan's edge by the candidate's edge with the
same attributes (appended in loop order), and keeps every other edge. -/
theorem rewireConsumers_edges_char (f2s : List FileNode) (f : FileNode) :
    ∀ (L : List StepId), L.Nodup → ∀ (g : PGraph),
      (∀ s ∈ L, ∀ c, bestBef g f2s s = some c →
         c ≠ f ∧ g.getEdgeAttrs (Node.fnode c) (Node.snode s) = none) →
      (rewireConsumers f2s f g L).edges =
        g.edges.filter (keepPred g f2s f L) ++ rewiredEdges g f2s f L := by
  intro L
  induction L with
  | nil =>
    intro _ g _
    show g.edges = _
    rw [show rewiredEdges g f2s f [] = [] from rfl, List.append_nil]
    symm
    apply List.filter_eq_self.mpr
    intro e _
    unfold keepPred
    cases e.dst <;> simp
  | cons s rest ih =>
    intro hnd g hh
    have hndr : rest.Nodup := (List.nodup_cons.mp hnd).2
    have hsnr : s ∉ rest := (List.nodup_cons.mp hnd).1
    show (rewireConsumers f2s f g (s :: rest)).edges = _
    unfold rewireConsumers
    cases hb : bestBef g f2s s with
    | none =>
      rw [ih hndr g (fun x hx => hh x (List.mem_cons_of_mem _ hx))]
      congr 1
      · exact List.filter_congr (fun e _ => keepPred_cons_none hb e)
      · unfold rewiredEdges
        rw [List.filterMap_cons]
        simp only [hb]
    | some c =>
      obtain ⟨hcf, hcnone⟩ := hh s (List.mem_cons_self _ _) c hb
      cases ha : g.getEdgeAttrs (Node.fnode f) (Node.snode s) with
      | none =>
        rw [ih hndr g (fun x hx => hh x (List.mem_cons_of_mem _ hx))]
        congr 1
        · exact List.filter_congr (fun e he =>
            keepPred_cons_some_nokey hb e
              (fun hk => (getEdgeAttrs_eq_none_iff g _ _).mp ha e he hk))
        · unfold rewiredEdges
          rw [List.filterMap_cons]
          simp only [hb, ha, Option.map_none']
      | some a =>
        have hne := hasEdge_eq_false g _ _ hcnone
        set g1 := (g.addEdge (Node.fnode c) (Node.snode s) a).removeEdge
          (Node.fnode f) (Node.snode s) with hg1
        have hshape := rewire_edges_shape g f c s a hcf hne
        have hsn : g1.snodes = g.snodes := by
          rw [hg1, removeEdge_snodes, addEdge_snodes]
        have hh1 : ∀ x ∈ rest, ∀ c', bestBef g1 f2s x = some c' →
            c' ≠ f ∧ g1.getEdgeAttrs (Node.fnode c') (Node.snode x) = none := by
          intro x hx c' hbx
          rw [bestBef_congr hsn] at hbx
          obtain ⟨h1, h2⟩ := hh x (List.mem_cons_of_mem _ hx) c' hbx
          refine ⟨h1, ?_⟩
          rw [hg1, getEdgeAttrs_rewire_of_ne g f c s a hcf hne (Node.fnode c') x
            (fun hxx => hsnr (hxx ▸ hx))]
          exact h2
        rw [ih hndr g1 hh1]
        have hat : ∀ x ∈ rest, g1.getEdgeAttrs (Node.fnode f) (Node.snode x)
            = g.getEdgeAttrs (Node.fnode f) (Node.snode x) := by
          intro x hx
          rw [hg1]
          exact getEdgeAttrs_rewire_of_ne g f c s a hcf hne (Node.fnode f) x
            (fun hxx => hsnr (hxx ▸ hx))
        rw [rewiredEdges_congr f2s f hsn rest hat]
        rw [List.filter_congr (fun e _ => keepPred_snodes_congr hsn f2s f rest e)]
        rw [hshape, List.filter_append, List.filter_filter]
        have henew : keepPred g f2s f rest ⟨Node.fnode c, Node.snode s, a⟩ = true := by
          unfold keepPred
          simp [hcf]
        rw [show List.filter (keepPred g f2s f rest)
            [(⟨Node.fnode c, Node.snode s, a⟩ : Edge)]
            = [(⟨Node.fnode c, Node.snode s, a⟩ : Edge)] from by simp [henew]]
        rw [List.filter_congr (fun e _ => keepPred_combine hb hsnr e)]
        have hrew : rewiredEdges g f2s f (s :: rest)
            = ⟨Node.fnode c, Node.snode s, a⟩ :: rewiredEdges g f2s f rest := by
          unfold rewiredEdges
          rw [List.filterMap_cons]
          simp only [hb, ha, Option.map_some']
        rw [hrew]
        simp [List.append_assoc]

theorem mem_succSteps_of_edge (g : PGraph) (f : FileNode) (e : Edge)
    (s' : StepId) (he : e ∈ g.edges) (hsrc : e.src = Node.fnode f)
    (hdst : e.dst = Node.snode s') : s' ∈ g.succSteps f := by
  unfold PGraph.succSteps
  apply List.mem_filterMap.mpr
  refine ⟨e, he, ?_⟩
  rw [if_pos hsrc, hdst]

/-- C1 (amended): the repair pass processes producer-less file nodes
sequentially in node order (`reconstruct_missing_connections` is the fold of
`processOrphan`); for the graph state at the moment an orphan is processed,
each of its current consumers with a qualifying candidate (latest mtime
strictly before the consumer's start time, among same-hash/path-equivalent
nodes of strictly earlier mtime) has its edge replaced by one from that
candidate with the same attributes, the original edge removed and all other
edges kept.  Because a rewired edge's new origin can itself be a
producer-less node processed later, that edge can be rewired again, so the
final producer need not be the original orphan's own best candidate (see
the counterexample). -/
theorem c1_amended_repair_rewiring (cands : FileNode → List FileNode)
    (g : PGraph) (f : FileNode)
    (hnodup : (g.succSteps f).Nodup)
    (hbest : ∀ s ∈ g.succSteps f, ∀ c, bestBef g (cands f) s = some c →
       c ≠ f ∧ g.getEdgeAttrs (Node.fnode c) (Node.snode s) = none) :
    (processOrphan cands g f).edges =
      if g.predF f = [] then
        keptEdges g (cands f) f ++ rewiredEdges g (cands f) f (g.succSteps f)
      else g.edges := by
  by_cases hp : g.predF f = []
  · rw [if_pos hp]
    unfold processOrphan
    rw [if_pos hp]
    by_cases hc : cands f = []
    · rw [if_pos hc]
      have hb0 : ∀ s, bestBef g (cands f) s = none := by
        intro s
        rw [hc]
        rfl
      have h1 : rewiredEdges g (cands f) f (g.succSteps f) = [] := by
        unfold rewiredEdges
        apply List.filterMap_eq_nil_iff.mpr
        intro s _
        rw [hb0 s]
      rw [h1, List.append_nil]
      unfold keptEdges
      symm
      apply List.filter_eq_self.mpr
      intro e _
      simp only [hb0]
      cases e.dst <;> simp
    · rw [if_neg hc]
      rw [rewireConsumers_edges_char (cands f) f (g.succSteps f) hnodup g hbest]
      congr 1
      unfold keptEdges
      apply List.filter_congr
      intro e he
      unfold keepPred
      cases hd : e.dst with
      | fnode _ => rfl
      | snode s' =>
        by_cases hsrc : e.src = Node.fnode f
        · have hmem : s' ∈ g.succSteps f := mem_succSteps_of_edge g f e s' he hsrc hd
          simp [hmem]
        · simp [hsrc]
  · rw [if_neg hp]
    unfold processOrphan
    rw [if_neg hp]

/-- C1 witness: one orphan (`fY9`), one consumer (`sW`), one candidate
(`fX5`): the rewiring step replaces the orphan's edge as characterized. -/
theorem c1_witness :
    (processOrphan candsW gW1 fY9).edges =
      if gW1.predF fY9 = [] then
        keptEdges gW1 (candsW fY9) fY9
          ++ rewiredEdges gW1 (candsW fY9) fY9 (gW1.succSteps fY9)
      else gW1.edges :=
  c1_amended_repair_rewiring candsW gW1 fY9 (by decide)
    (by
      intro s hs c hc
      have hseq : s = "sW" := List.mem_singleton.mp hs
      subst hseq
      have h2 : some fX5 = some c := hc
      obtain rfl := Option.some.inj h2
      exact ⟨by decide, by decide⟩)

/-- C1 counterexample: loading a store of three steps that read the same
path `/p` (hash `h`) at mtimes 10, 5 and 3 yields `gC1final`.  For the
orphan `fA1` (mtime 10) and its consumer `sA` (start time 20), the claim's
rule selects `fB1` (mtime 5, the latest strictly-earlier mtime preceding
the consumer's start; the candidate indices and start times depend only on
the node set, which repair does not change) -- but in the repaired graph
`sA`'s edge originates from `fC1` (mtime 3) and no `fB1 -> sA` edge exists,
because `fB1` is itself an orphan processed later, whose processing rewires
the edge a second time. -/
theorem c1_counterexample :
    PGraph.load fsT 20 10000 [recRead "sA" 10, recRead "sB" 5, recRead "sC" 3]
      = some gC1final ∧
    bestBef gC1final (repairCandidates fsT gC1final fA1) "sA" = some fB1 ∧
    fB1 ≠ fC1 ∧
    gC1final.getEdgeAttrs (Node.fnode fB1) (Node.snode "sA") = none ∧
    gC1final.getEdgeAttrs (Node.fnode fC1) (Node.snode "sA") = some ⟨"i", []⟩ := by
  decide
